import Mathlib

/-!
Verification of the truth-table generator (lexer + AST evaluation/rendering).

The definitions below are shallow embeddings of the repository's code:

* `Node`, `evaluate`, `toString`, `toLatex`, `toLatexVar` embed `ast.js`
  (the version with the factored LaTeX renderer, `src/unnamed/part_001`;
  `evaluate`, `toString` and `toLatex` are textually identical in
  `src/src/lib/ast.ts` and `src/unnamed/part_000`).
* `assignmentValue` embeds the virtual-bit-array Proxy of
  `src/lib/TruthTable.svelte`.
* The scanner definitions embed `scanner.js` (`src/unnamed/part_002`).

JavaScript strings are modelled as `List Char` (all characters involved are
in the basic multilingual plane, so code-unit order and code-point order
agree), character positions as `Nat`, thrown error objects as `Except`.
-/

namespace TruthTableTool

/-- AST nodes of `ast.js`: one constructor per node-building function
(`trueNode`, `falseNode`, `negateNode`, `andNode`, `orNode`, `impliesNode`,
`iffNode`, `xorNode`, `variableNode`).  In the source each node is a record
of closures; here the tree is a closed inductive and each closure becomes a
function matching on the constructor. -/
inductive Node where
  | trueNode : Node
  | falseNode : Node
  | negateNode : Node → Node
  | andNode : Node → Node → Node
  | orNode : Node → Node → Node
  | impliesNode : Node → Node → Node
  | iffNode : Node → Node → Node
  | xorNode : Node → Node → Node
  | variableNode : Nat → Node
deriving DecidableEq, Repr

/-- `evaluate(assignment)` from `ast.js`.  `assignment[index]` reads the
array; out-of-range access (JS `undefined`, falsy) is modelled by the
default `false`. -/
def evaluate : Node → List Bool → Bool
  | .trueNode, _ => true
  | .falseNode, _ => false
  | .negateNode u, a => !(evaluate u a)
  | .andNode l r, a => evaluate l a && evaluate r a
  | .orNode l r, a => evaluate l a || evaluate r a
  | .impliesNode l r, a => !(evaluate l a) || evaluate r a
  | .iffNode l r, a => evaluate l a == evaluate r a
  | .xorNode l r, a => evaluate l a != evaluate r a
  | .variableNode i, a => a.getD i false

/-- `toString(variables)` from `ast.js`: infix rendering with HTML-entity
glyphs, one pair of parentheses around every binary node.
`variables[index]` out of range stringifies to `"undefined"` in JS. -/
def toString : Node → List String → String
  | .trueNode, _ => "&#8868;"
  | .falseNode, _ => "&#8869;"
  | .negateNode u, v => "&not;" ++ toString u v
  | .andNode l r, v => "(" ++ toString l v ++ " &and; " ++ toString r v ++ ")"
  | .orNode l r, v => "(" ++ toString l v ++ " &or; " ++ toString r v ++ ")"
  | .impliesNode l r, v => "(" ++ toString l v ++ " &rarr; " ++ toString r v ++ ")"
  | .iffNode l r, v => "(" ++ toString l v ++ " &harr; " ++ toString r v ++ ")"
  | .xorNode l r, v => "(" ++ toString l v ++ " &oplus; " ++ toString r v ++ ")"
  | .variableNode i, v => v.getD i "undefined"

/-- `toLatex(variables)` from `ast.js`: same shape as `toString` with LaTeX
command glyphs. -/
def toLatex : Node → List String → String
  | .trueNode, _ => "T"
  | .falseNode, _ => "F"
  | .negateNode u, v => "\\neg " ++ toLatex u v
  | .andNode l r, v => "(" ++ toLatex l v ++ " \\land " ++ toLatex r v ++ ")"
  | .orNode l r, v => "(" ++ toLatex l v ++ " \\lor " ++ toLatex r v ++ ")"
  | .impliesNode l r, v => "(" ++ toLatex l v ++ " \\implies " ++ toLatex r v ++ ")"
  | .iffNode l r, v => "(" ++ toLatex l v ++ " \\iff " ++ toLatex r v ++ ")"
  | .xorNode l r, v => "(" ++ toLatex l v ++ " \\oplus " ++ toLatex r v ++ ")"
  | .variableNode i, v => v.getD i "undefined"

/-- `String.fromCharCode(65 + state)` from `ast.js`: the label letter minted
for the binary node visited when the external counter reads `state`
(`A` for 0, `B` for 1, …).  Faithful below the UTF-16 surrogate range,
far beyond any reachable label count. -/
def labelChar (state : Nat) : String := String.mk [Char.ofNat (65 + state)]

/-- State of the factored renderer: the module-level counter `state` of
`ast.js` paired with the `keys` record.  A JS object with string keys
enumerates in insertion order, so `keys` becomes an association list to
which bindings are appended; every key minted is fresh because the counter
only grows, so appending coincides with JS property insertion. -/
abbrev LabelState := Nat × List (String × String × Bool)

/-- `toLatexVar(variables, assignment, keys)` from `ast.js`.  Each leaf and
`Not` node renders structurally; each binary node renders both operands
first, then reads the counter to mint `var_char`, increments it, stores
`keys[var_char] = [latex, this.evaluate(assignment)]`, and returns the bare
letter.  The mutable counter and `keys` object are threaded as an explicit
state pair. -/
def toLatexVar : Node → List String → List Bool → LabelState → String × LabelState
  | .trueNode, _, _, s => ("\\top", s)
  | .falseNode, _, _, s => ("\\bot", s)
  | .negateNode u, v, a, s =>
      let p := toLatexVar u v a s
      ("\\neg " ++ p.1, p.2)
  | .andNode l r, v, a, s =>
      let pl := toLatexVar l v a s
      let pr := toLatexVar r v a pl.2
      let latex := "(" ++ pl.1 ++ " \\land " ++ pr.1 ++ ")"
      (labelChar pr.2.1,
        (pr.2.1 + 1, pr.2.2 ++ [(labelChar pr.2.1, latex, evaluate (.andNode l r) a)]))
  | .orNode l r, v, a, s =>
      let pl := toLatexVar l v a s
      let pr := toLatexVar r v a pl.2
      let latex := "(" ++ pl.1 ++ " \\lor " ++ pr.1 ++ ")"
      (labelChar pr.2.1,
        (pr.2.1 + 1, pr.2.2 ++ [(labelChar pr.2.1, latex, evaluate (.orNode l r) a)]))
  | .impliesNode l r, v, a, s =>
      let pl := toLatexVar l v a s
      let pr := toLatexVar r v a pl.2
      let latex := "(" ++ pl.1 ++ " \\implies " ++ pr.1 ++ ")"
      (labelChar pr.2.1,
        (pr.2.1 + 1, pr.2.2 ++ [(labelChar pr.2.1, latex, evaluate (.impliesNode l r) a)]))
  | .iffNode l r, v, a, s =>
      let pl := toLatexVar l v a s
      let pr := toLatexVar r v a pl.2
      let latex := "(" ++ pl.1 ++ " \\iff " ++ pr.1 ++ ")"
      (labelChar pr.2.1,
        (pr.2.1 + 1, pr.2.2 ++ [(labelChar pr.2.1, latex, evaluate (.iffNode l r) a)]))
  | .xorNode l r, v, a, s =>
      let pl := toLatexVar l v a s
      let pr := toLatexVar r v a pl.2
      let latex := "(" ++ pl.1 ++ " \\oplus " ++ pr.1 ++ ")"
      (labelChar pr.2.1,
        (pr.2.1 + 1, pr.2.2 ++ [(labelChar pr.2.1, latex, evaluate (.xorNode l r) a)]))
  | .variableNode i, v, _, s => (v.getD i "undefined", s)

/-- Number of binary nodes (the nodes that mint a label in `toLatexVar`). -/
def binCount : Node → Nat
  | .trueNode => 0
  | .falseNode => 0
  | .negateNode u => binCount u
  | .andNode l r => binCount l + binCount r + 1
  | .orNode l r => binCount l + binCount r + 1
  | .impliesNode l r => binCount l + binCount r + 1
  | .iffNode l r => binCount l + binCount r + 1
  | .xorNode l r => binCount l + binCount r + 1
  | .variableNode _ => 0

/-- Error object thrown by `scannerFail`: `{description, start, end}`.
The field `end` is a Lean keyword and is rendered `endPos`. -/
structure LexError where
  description : String
  start : Nat
  endPos : Nat
deriving DecidableEq, Repr

/-- Token of the preliminary scan: `{type, start, end, index?}` where the
optional `index` still holds the variable's *name*. -/
structure PrelimToken where
  type : String
  start : Nat
  endPos : Nat
  index : Option String
deriving DecidableEq, Repr

/-- Token after `numberVariables`: the `index` of a variable token has been
replaced by its numeric code. -/
structure Token where
  type : String
  start : Nat
  endPos : Nat
  index : Option Nat
deriving DecidableEq, Repr

/-- JS `/\s/` on the characters reachable here (the full ECMAScript
whitespace class, all BMP code points). -/
def isWhitespace (c : Char) : Bool :=
  c == '\t' || c == '\n' || c == '\u000B' || c == '\u000C' || c == '\r' ||
  c == ' ' || c == '\u00A0' || c == '\u1680' ||
  (decide ('\u2000' ≤ c) && decide (c ≤ '\u200A')) ||
  c == '\u2028' || c == '\u2029' || c == '\u202F' || c == '\u205F' ||
  c == '\u3000' || c == '\uFEFF'

/-- The `okayChars` character class of `checkIntegrity`:
`[A-Za-z_0-9\\\/<>\-~^()\s\&\|\=\!∧∨→↔⊤⊥¬⊕]`. -/
def isOkayChar (c : Char) : Bool :=
  (decide ('A' ≤ c) && decide (c ≤ 'Z')) ||
  (decide ('a' ≤ c) && decide (c ≤ 'z')) ||
  c == '_' ||
  (decide ('0' ≤ c) && decide (c ≤ '9')) ||
  c == '\\' || c == '/' || c == '<' || c == '>' || c == '-' || c == '~' ||
  c == '^' || c == '(' || c == ')' || isWhitespace c ||
  c == '&' || c == '|' || c == '=' || c == '!' ||
  c == '∧' || c == '∨' || c == '→' || c == '↔' ||
  c == '⊤' || c == '⊥' || c == '¬' || c == '⊕'

/-- First character class of a variable name, `/[A-Za-z_]/`. -/
def isVarStartChar (c : Char) : Bool :=
  (decide ('A' ≤ c) && decide (c ≤ 'Z')) ||
  (decide ('a' ≤ c) && decide (c ≤ 'z')) ||
  c == '_'

/-- Continuation character class of a variable name, `/[A-Za-z_0-9]/`. -/
def isVarChar (c : Char) : Bool :=
  isVarStartChar c || (decide ('0' ≤ c) && decide (c ≤ '9'))

/-- `isReservedWord` from `scanner.js`. -/
def isReservedWord (token : String) : Bool :=
  token == "T" || token == "F" || token == "and" || token == "or" ||
  token == "not" || token == "iff" || token == "implies" ||
  token == "true" || token == "false" || token == "xor"

/-- The `convert` alias table of `scanner.js`, in source order: every
accepted spelling paired with its canonical token type. -/
def convert : List (String × String) :=
  [("/\\", "/\\"), ("&&", "/\\"), ("and", "/\\"), ("∧", "/\\"),
   ("\\land", "/\\"), ("\\wedge", "/\\"),
   ("\\/", "\\/"), ("||", "\\/"), ("or", "\\/"), ("∨", "\\/"),
   ("\\lor", "\\/"), ("\\vee", "\\/"),
   ("->", "->"), ("=>", "->"), ("→", "->"), ("implies", "->"),
   ("\\to", "->"), ("\\rightarrow", "->"), ("\\Rightarrow", "->"),
   ("\\implies", "->"),
   ("<->", "<->"), ("<=>", "<->"), ("↔", "<->"), ("iff", "<->"),
   ("\\leftrightarrow", "<->"), ("\\Leftrightarrow", "<->"),
   ("\\equiv", "<->"), ("\\same", "<->"),
   ("~", "~"), ("not", "~"), ("!", "~"), ("¬", "~"),
   ("\\lnot", "~"), ("\\neg", "~"),
   ("^", "^"), ("xor", "^"), ("⊕", "^"), ("\\niff", "^"),
   ("\\oplus", "^"),
   ("T", "T"), ("⊤", "T"), ("true", "T"), ("\\top", "T"),
   ("F", "F"), ("⊥", "F"), ("false", "F"), ("\\bot", "F")]

/-- The operator alias spellings: `Object.keys(convert)` in order. -/
def opKeys : List String := convert.map Prod.fst

/-- `translate`: canonicalize a lexeme through `convert`, identity for
lexemes that are their own type (`convert[input] ?? input`). -/
def translate (input : String) : String :=
  match convert.lookup input with
  | some t => t
  | none => input

/-- Bucket `operators[len]` of `scanner.js`: the alias spellings of a given
length, in table order (the JS code distributes `Object.keys(convert)` into
length-indexed buckets; `filter` preserves that order). -/
def operatorsOfLength (len : Nat) : List String :=
  opKeys.filter (fun k => k.length == len)

/-- Inner loop of `tryReadOperator`, counting the candidate alias length
down from 19 (`operators.length - 1`).  `rest` is the input from the
current position on (`input.substring(index)`), so the JS guard
`index >= input.length - i` is `rest.length ≤ i`, and
`input.substring(index, index + i)` is `rest.take i`.  The length-0
iteration of the JS loop can never match because no alias is empty, so the
recursion bottoms out at `none`. -/
def tryOpAux (rest : List Char) : Nat → Option String
  | 0 => none
  | n + 1 =>
      if rest.length ≤ n + 1 then tryOpAux rest n
      else
        let nChars := String.mk (rest.take (n + 1))
        if (operatorsOfLength (n + 1)).contains nChars then some nChars
        else tryOpAux rest n

/-- `tryReadOperator(input, index)` with `rest = input.substring(index)`. -/
def tryReadOperator (rest : List Char) : Option String := tryOpAux rest 19

/-- The maximal run of variable-name characters at the head of the
remaining input: the `while` loop of `tryReadVariableName`. -/
def readVarRun : List Char → List Char
  | [] => []
  | c :: rest => if isVarChar c then c :: readVarRun rest else []

/-- `tryReadVariableName(input, index)` with `rest = input.substring(index)`:
require a `[A-Za-z_]` start, take the maximal `[A-Za-z_0-9]*` run, reject
reserved words.  JS `charAt` past the end yields `""`, which fails the
start test, modelled by the `[]` case. -/
def tryReadVariableName (rest : List Char) : Option String :=
  match rest with
  | [] => none
  | c :: _ =>
      if isVarStartChar c then
        let result := String.mk (readVarRun rest)
        if isReservedWord result then none else some result
      else none

/-- `variableSet[variableName] = true` in `scanVariable`: a JS object
literal keyed by names, enumerated in insertion order, modelled as an
ordered list of distinct names.  The object literal inherits from
`Object.prototype`, so assigning the key `__proto__` invokes the inherited
accessor-setter and creates no own property: that one name is silently
dropped.  Every other identifier creates (or overwrites) an own key —
names of inherited data properties such as `toString` simply shadow
them. -/
def insertVar (vars : List String) (name : String) : List String :=
  if name = "__proto__" then vars
  else if vars.contains name then vars else vars ++ [name]

/-- `makeIdentityToken(str, index)`. -/
def makeIdentityToken (str : String) (index : Nat) : PrelimToken :=
  ⟨translate str, index, index + str.length, none⟩

/-- `makeVariableToken(varIndex, start, end)`. -/
def makeVariableToken (varIndex : String) (start endP : Nat) : PrelimToken :=
  ⟨"variable", start, endP, some varIndex⟩

/-- The `while (true)` loop of `preliminaryScan`.  `rest` is the not yet
consumed part of the sentinel-terminated input (`input.substring(i)`), `i`
the current position, `vars` the variable set, `toks` the tokens pushed so
far (`charAt` is re-evaluated where the JS re-evaluates it).  `input.charAt(i)` is the head of `rest` (`""`, modelled as `'\u0000'`,
past the end; both fail every branch test alike).  The loop always advances
by at least one character, so fuel `input.length + 2` (supplied by
`preliminaryScan`) can never run out; the fuel-exhaustion error is an
artifact of the model, unreachable from `preliminaryScan`. -/
def scanLoop : Nat → List Char → Nat → List String → List PrelimToken →
    Except LexError (List PrelimToken × List String)
  | 0, _, i, _, _ => .error ⟨"scan loop fuel exhausted", i, i⟩
  | fuel + 1, rest, i, vars, toks =>
      if rest.headD '\u0000' = '$' then
        .ok (toks ++ [makeIdentityToken "$" i], vars)
      else
        match tryReadVariableName rest with
        | some v =>
            scanLoop fuel (rest.drop v.length) (i + v.length)
              (insertVar vars v) (toks ++ [makeVariableToken v i (i + v.length)])
        | none =>
            match tryReadOperator rest with
            | some t =>
                scanLoop fuel (rest.drop t.length) (i + t.length)
                  vars (toks ++ [makeIdentityToken t i])
            | none =>
                if isWhitespace (rest.headD '\u0000') then
                  scanLoop fuel (rest.drop 1) (i + 1) vars toks
                else
                  .error ⟨"The character " ++ String.mk [rest.headD '\u0000'] ++
                    " shouldn't be here.", i, i + 1⟩

/-- `preliminaryScan(input)`: append the `$` EOF sentinel and run the loop
from position 0 with empty variable set and token list. -/
def preliminaryScan (input : List Char) :
    Except LexError (List PrelimToken × List String) :=
  scanLoop (input.length + 2) (input ++ ['$']) 0 [] []

/-- Loop body of `checkIntegrity`, carrying the current index. -/
def checkIntegrityAux : List Char → Nat → Except LexError Unit
  | [], _ => .ok ()
  | c :: rest, i =>
      if isOkayChar c then checkIntegrityAux rest (i + 1)
      else .error ⟨"Illegal character", i, i + 1⟩

/-- `checkIntegrity(input)`: fail on the first character outside
`okayChars`, with a one-character span. -/
def checkIntegrity (input : List Char) : Except LexError Unit :=
  checkIntegrityAux input 0

/-- JS code-unit comparison of strings as used by `Array.prototype.sort`'s
default comparator, on the character lists. -/
def lexLtChars : List Char → List Char → Bool
  | [], [] => false
  | [], _ :: _ => true
  | _ :: _, [] => false
  | a :: as, b :: bs =>
      if a < b then true else if b < a then false else lexLtChars as bs

/-- Strict lexicographic order on names (JS `<` on strings). -/
def lexLt (a b : String) : Bool := lexLtChars a.data b.data

/-- Reflexive lexicographic order on names. -/
def lexLe (a b : String) : Bool := lexLt a b || a == b

/-- Insert a name into an already sorted list of names. -/
def insertSorted (s : String) : List String → List String
  | [] => [s]
  | t :: rest => if lexLe s t then s :: t :: rest else t :: insertSorted s rest

/-- `variables.sort()` of `numberVariables`: the default JS sort orders
strings by code units.  The names being pairwise distinct, any correct
sort produces the same list; insertion sort is used here. -/
def sortStrings : List String → List String
  | [] => []
  | s :: rest => insertSorted s (sortStrings rest)

/-- Position of a name in the variable table: the inverted lookup
`preliminary.variableSet[name]` built by `numberVariables` (which stores
`variableSet[variables[i]] = i`).  A name absent from the table maps to
the table's length where JS would give `undefined`; `numberVariables`
only looks up names the preliminary scan collected. -/
def idxOfName : List String → String → Nat
  | [], _ => 0
  | t :: rest, s => if t = s then 0 else idxOfName rest s + 1

/-- The lookup `preliminary.variableSet[token.index]` performed by
`numberVariables` after it inverted the table (`variableSet[variables[i]]
= i`).  A collected name yields its position in the sorted table.  The
name `__proto__` was never stored (see `insertVar`) and the lookup hits
the inherited accessor-getter, yielding `Object.prototype`; an
uncollected name yields `undefined`.  Neither is a numeric index, so both
are modelled as `none`. -/
def variableSetLookup (varTable : List String) (nm : String) : Option Nat :=
  if nm = "__proto__" then none
  else if varTable.contains nm then some (idxOfName varTable nm) else none

/-- Renumbering of one token in `numberVariables`: a `"variable"` token's
name is replaced by whatever the inverted variable-set lookup yields for
it (its index in the sorted table for every collected name), other tokens
carry no index. -/
def numberToken (varTable : List String) (t : PrelimToken) : Token :=
  if t.type = "variable" then
    ⟨t.type, t.start, t.endPos, variableSetLookup varTable (t.index.getD "")⟩
  else ⟨t.type, t.start, t.endPos, none⟩

/-- `numberVariables(preliminary)`: sort the collected names and replace
every variable token's name by its alphabetical index. -/
def numberVariables (preliminary : List PrelimToken × List String) :
    List Token × List String :=
  let varTable := sortStrings preliminary.2
  (preliminary.1.map (numberToken varTable), varTable)

/-- `scan(input)`: integrity check, preliminary scan, renumbering.  Thrown
errors propagate as `Except.error`. -/
def scan (input : List Char) : Except LexError (List Token × List String) :=
  match checkIntegrity input with
  | .error e => .error e
  | .ok _ =>
      match preliminaryScan input with
      | .error e => .error e
      | .ok preliminary => .ok (numberVariables preliminary)

/-! ## Lemmas about the factored renderer -/

/-- Counter and key progression of `toLatexVar`: a render advances the
counter by the number of binary nodes and appends exactly the labels
`labelChar c, labelChar (c+1), …` (in visitation order) to the keys. -/
lemma toLatexVar_counter_labels (n : Node) (v : List String) (a : List Bool) :
    ∀ c ks, (toLatexVar n v a (c, ks)).2.1 = c + binCount n ∧
      ((toLatexVar n v a (c, ks)).2.2).map Prod.fst =
        ks.map Prod.fst ++ (List.range (binCount n)).map (fun j => labelChar (c + j)) := by
  induction n with
  | trueNode => intro c ks; simp [toLatexVar, binCount]
  | falseNode => intro c ks; simp [toLatexVar, binCount]
  | variableNode i => intro c ks; simp [toLatexVar, binCount]
  | negateNode u ih =>
      intro c ks
      simpa [toLatexVar, binCount] using ih c ks
  | andNode l r ihl ihr =>
      intro c ks
      obtain ⟨hl1, hl2⟩ := ihl c ks
      obtain ⟨hr1, hr2⟩ := ihr (toLatexVar l v a (c, ks)).2.1 (toLatexVar l v a (c, ks)).2.2
      rw [Prod.mk.eta] at hr1 hr2
      refine ⟨?_, ?_⟩
      · simp only [toLatexVar, binCount]
        rw [hr1, hl1]; omega
      · simp only [toLatexVar, binCount, List.map_append, hr2, hl2, hr1, hl1,
          List.range_succ, List.range_add, List.map_map, Function.comp]
        simp [labelChar, Nat.add_assoc]
  | orNode l r ihl ihr =>
      intro c ks
      obtain ⟨hl1, hl2⟩ := ihl c ks
      obtain ⟨hr1, hr2⟩ := ihr (toLatexVar l v a (c, ks)).2.1 (toLatexVar l v a (c, ks)).2.2
      rw [Prod.mk.eta] at hr1 hr2
      refine ⟨?_, ?_⟩
      · simp only [toLatexVar, binCount]
        rw [hr1, hl1]; omega
      · simp only [toLatexVar, binCount, List.map_append, hr2, hl2, hr1, hl1,
          List.range_succ, List.range_add, List.map_map, Function.comp]
        simp [labelChar, Nat.add_assoc]
  | impliesNode l r ihl ihr =>
      intro c ks
      obtain ⟨hl1, hl2⟩ := ihl c ks
      obtain ⟨hr1, hr2⟩ := ihr (toLatexVar l v a (c, ks)).2.1 (toLatexVar l v a (c, ks)).2.2
      rw [Prod.mk.eta] at hr1 hr2
      refine ⟨?_, ?_⟩
      · simp only [toLatexVar, binCount]
        rw [hr1, hl1]; omega
      · simp only [toLatexVar, binCount, List.map_append, hr2, hl2, hr1, hl1,
          List.range_succ, List.range_add, List.map_map, Function.comp]
        simp [labelChar, Nat.add_assoc]
  | iffNode l r ihl ihr =>
      intro c ks
      obtain ⟨hl1, hl2⟩ := ihl c ks
      obtain ⟨hr1, hr2⟩ := ihr (toLatexVar l v a (c, ks)).2.1 (toLatexVar l v a (c, ks)).2.2
      rw [Prod.mk.eta] at hr1 hr2
      refine ⟨?_, ?_⟩
      · simp only [toLatexVar, binCount]
        rw [hr1, hl1]; omega
      · simp only [toLatexVar, binCount, List.map_append, hr2, hl2, hr1, hl1,
          List.range_succ, List.range_add, List.map_map, Function.comp]
        simp [labelChar, Nat.add_assoc]
  | xorNode l r ihl ihr =>
      intro c ks
      obtain ⟨hl1, hl2⟩ := ihl c ks
      obtain ⟨hr1, hr2⟩ := ihr (toLatexVar l v a (c, ks)).2.1 (toLatexVar l v a (c, ks)).2.2
      rw [Prod.mk.eta] at hr1 hr2
      refine ⟨?_, ?_⟩
      · simp only [toLatexVar, binCount]
        rw [hr1, hl1]; omega
      · simp only [toLatexVar, binCount, List.map_append, hr2, hl2, hr1, hl1,
          List.range_succ, List.range_add, List.map_map, Function.comp]
        simp [labelChar, Nat.add_assoc]

/-! ## Lemmas about the operator reader -/

/-- Membership in a length bucket is membership in the alias table at that
length. -/
lemma contains_operatorsOfLength {m : Nat} {s : String} :
    (operatorsOfLength m).contains s = true ↔ s ∈ opKeys ∧ s.length = m := by
  simp [operatorsOfLength, List.contains, List.elem_iff, List.mem_filter]

/-- Every alias spelling is nonempty. -/
lemma opKeys_pos_length : ∀ k ∈ opKeys, 0 < k.length := by decide

/-- Every alias spelling has at most 19 characters (the bucket count of
`operators` minus one). -/
lemma opKeys_length_le : ∀ k ∈ opKeys, k.length ≤ 19 := by decide

/-- A successful `tryOpAux` returns an alias that occurs at the head of
the remaining input, fits strictly inside it, and is at least as long as
any other alias of length at most `n` that also occurs there. -/
lemma tryOpAux_some_spec (rest : List Char) :
    ∀ n s, tryOpAux rest n = some s →
      s ∈ opKeys ∧ s.length ≤ n ∧ s.length < rest.length ∧
      rest.take s.length = s.data ∧
      (∀ t ∈ opKeys, t.length ≤ n → t.length < rest.length →
        rest.take t.length = t.data → t.length ≤ s.length) := by
  intro n
  induction n with
  | zero => intro s h; simp [tryOpAux] at h
  | succ n ih =>
      intro s h
      by_cases hlen : rest.length ≤ n + 1
      · rw [tryOpAux, if_pos hlen] at h
        obtain ⟨h1, h2, h3, h4, h5⟩ := ih s h
        exact ⟨h1, by omega, h3, h4, fun t ht htn htl hm => h5 t ht (by omega) htl hm⟩
      · rw [tryOpAux, if_neg hlen] at h
        by_cases hc :
            (operatorsOfLength (n + 1)).contains (String.mk (rest.take (n + 1))) = true
        · simp only [hc, if_true] at h
          obtain ⟨hmem, hlen'⟩ := contains_operatorsOfLength.mp hc
          obtain rfl : String.mk (rest.take (n + 1)) = s := by
            injection h
          refine ⟨hmem, by omega, by simpa [hlen'] using Nat.lt_of_not_le hlen, ?_, ?_⟩
          · rw [hlen']
          · intro t _ htn _ _
            omega
        · simp only [hc, if_false] at h
          obtain ⟨h1, h2, h3, h4, h5⟩ := ih s h
          refine ⟨h1, by omega, h3, h4, ?_⟩
          intro t ht htn htl hm
          by_cases hte : t.length = n + 1
          · exfalso
            apply hc
            have hts : String.mk (rest.take (n + 1)) = t := by
              rw [← hte, hm]
            rw [hts]
            exact contains_operatorsOfLength.mpr ⟨ht, hte⟩
          · exact h5 t ht (by omega) htl hm


/-- A failed `tryOpAux` means no alias of length at most `n` occurs at the
head of the remaining input with room to spare. -/
lemma tryOpAux_none_spec (rest : List Char) :
    ∀ n, tryOpAux rest n = none →
      ∀ t ∈ opKeys, t.length ≤ n → t.length < rest.length →
        rest.take t.length ≠ t.data := by
  intro n
  induction n with
  | zero =>
      intro _ t ht htn _ _
      have := opKeys_pos_length t ht
      omega
  | succ n ih =>
      intro h t ht htn htl hm
      by_cases hlen : rest.length ≤ n + 1
      · rw [tryOpAux, if_pos hlen] at h
        exact ih h t ht (by omega) htl hm
      · rw [tryOpAux, if_neg hlen] at h
        by_cases hc :
            (operatorsOfLength (n + 1)).contains (String.mk (rest.take (n + 1))) = true
        · have hbucket : String.mk (rest.take (n + 1)) ∈ operatorsOfLength (n + 1) := by
            obtain ⟨hmem, hl'⟩ := contains_operatorsOfLength.mp hc
            simp [operatorsOfLength, List.mem_filter, hmem, hl']
          simp [hbucket] at h
        · simp only [hc, if_false] at h
          by_cases hte : t.length = n + 1
          · apply hc
            have hts : String.mk (rest.take (n + 1)) = t := by
              rw [← hte, hm]
            rw [hts]
            exact contains_operatorsOfLength.mpr ⟨ht, hte⟩
          · exact ih h t ht (by omega) htl hm

/-! ## Lemmas about the scan loop -/

/-- The variable-character run is an initial segment of its input. -/
lemma readVarRun_decomp : ∀ l : List Char, ∃ l₂, l = readVarRun l ++ l₂ := by
  intro l
  induction l with
  | nil => exact ⟨[], rfl⟩
  | cons c rest ih =>
      by_cases hc : isVarChar c = true
      · obtain ⟨l₂, hl₂⟩ := ih
        exact ⟨l₂, by rw [readVarRun, if_pos hc, List.cons_append, ← hl₂]⟩
      · exact ⟨c :: rest, by rw [readVarRun, if_neg hc, List.nil_append]⟩

/-- Every character of the variable-character run is a variable
character. -/
lemma readVarRun_chars : ∀ l : List Char, ∀ c ∈ readVarRun l, isVarChar c = true := by
  intro l
  induction l with
  | nil => intro c hc; simp [readVarRun] at hc
  | cons d rest ih =>
      intro c hc
      by_cases hd : isVarChar d = true
      · rw [readVarRun, if_pos hd] at hc
        rcases List.mem_cons.mp hc with rfl | hc'
        · exact hd
        · exact ih c hc'
      · rw [readVarRun, if_neg hd] at hc
        simp at hc

/-- A variable-start character is a variable character. -/
lemma isVarChar_of_start {c : Char} (h : isVarStartChar c = true) :
    isVarChar c = true := by
  simp [isVarChar, h]

/-- A successful `tryReadVariableName` returns the (nonempty) maximal
variable-character run at the head of the remaining input. -/
lemma tryReadVariableName_some {rest : List Char} {v : String}
    (h : tryReadVariableName rest = some v) :
    v.data = readVarRun rest ∧ 0 < v.length := by
  match rest with
  | [] => simp [tryReadVariableName] at h
  | c :: t =>
      rw [tryReadVariableName] at h
      by_cases hs : isVarStartChar c = true
      · rw [if_pos hs] at h
        by_cases hr : isReservedWord (String.mk (readVarRun (c :: t))) = true
        · rw [if_pos hr] at h; cases h
        · rw [if_neg hr] at h
          injection h with h
          subst h
          refine ⟨rfl, ?_⟩
          have : readVarRun (c :: t) = c :: readVarRun t := by
            rw [readVarRun, if_pos (isVarChar_of_start hs)]
          simp [String.length, this]
      · rw [if_neg hs] at h; cases h

/-- `insertVar` membership: the set grows by exactly the inserted name,
except that `__proto__` is never stored. -/
lemma mem_insertVar {vars : List String} {v nm : String} :
    nm ∈ insertVar vars v ↔ nm ∈ vars ∨ (nm = v ∧ v ≠ "__proto__") := by
  unfold insertVar
  by_cases hp : v = "__proto__"
  · rw [if_pos hp]
    constructor
    · exact Or.inl
    · rintro (h | ⟨-, hne⟩)
      · exact h
      · exact absurd hp hne
  · rw [if_neg hp]
    by_cases hc : vars.contains v = true
    · have hv : v ∈ vars := by simpa [List.contains, List.elem_iff] using hc
      rw [if_pos hc]
      constructor
      · exact Or.inl
      · rintro (h | ⟨rfl, -⟩)
        · exact h
        · exact hv
    · rw [if_neg hc]
      simp only [List.mem_append, List.mem_singleton]
      constructor
      · rintro (h | rfl)
        · exact Or.inl h
        · exact Or.inr ⟨rfl, hp⟩
      · rintro (h | ⟨rfl, -⟩)
        · exact Or.inl h
        · exact Or.inr rfl

/-- `insertVar` keeps the name list duplicate-free. -/
lemma insertVar_nodup {vars : List String} {v : String} (h : vars.Nodup) :
    (insertVar vars v).Nodup := by
  unfold insertVar
  by_cases hp : v = "__proto__"
  · rw [if_pos hp]; exact h
  · rw [if_neg hp]
    by_cases hc : vars.contains v = true
    · rw [if_pos hc]; exact h
    · have hv : v ∉ vars := by
        intro hm
        exact hc (by simpa [List.contains, List.elem_iff] using hm)
      rw [if_neg hc]
      simpa [List.nodup_append, h] using hv

/-- A `$`-free initial segment of `mid ++ [$]` stays inside `mid`. -/
lemma run_le_mid {mid run l₂ : List Char} (hnd : '$' ∉ run)
    (heq : mid ++ ['$'] = run ++ l₂) : run.length ≤ mid.length := by
  by_contra hgt
  have hlen : mid.length + 1 = run.length + l₂.length := by
    simpa using congrArg List.length heq
  have hl₂ : l₂.length = 0 := by omega
  have : run = mid ++ ['$'] := by
    rw [heq, List.length_eq_zero.mp hl₂, List.append_nil]
  exact hnd (this ▸ List.mem_append_right mid (List.mem_singleton.mpr rfl))

/-- Facts evaluated over the alias table: no spelling contains the
sentinel character. -/
lemma opKeys_no_dollar : ∀ k ∈ opKeys, '$' ∉ k.data := by decide

/-- Facts evaluated over the alias table: no canonical type is `$`. -/
lemma translate_opKeys_ne_dollar : ∀ k ∈ opKeys, translate k ≠ "$" := by decide

/-- Facts evaluated over the alias table: no canonical type is
`variable`. -/
lemma translate_opKeys_ne_variable : ∀ k ∈ opKeys, translate k ≠ "variable" := by decide

/-- The integrity loop fails at the first disallowed character, with a
one-character span, whenever some character of the input is disallowed. -/
lemma checkIntegrityAux_error_of_bad (l : List Char) :
    ∀ start, (∃ c ∈ l, isOkayChar c = false) →
      ∃ j, checkIntegrityAux l start =
          .error ⟨"Illegal character", start + j, start + j + 1⟩ ∧
        j < l.length ∧ isOkayChar (l.getD j '\u0000') = false ∧
        ∀ m < j, isOkayChar (l.getD m '\u0000') = true := by
  induction l with
  | nil => intro start h; simp at h
  | cons c rest ih =>
      intro start h
      by_cases hc : isOkayChar c = true
      · have hrest : ∃ d ∈ rest, isOkayChar d = false := by
          obtain ⟨d, hd, hdbad⟩ := h
          rcases List.mem_cons.mp hd with rfl | hd'
          · rw [hc] at hdbad; cases hdbad
          · exact ⟨d, hd', hdbad⟩
        obtain ⟨j, hj, hlt, hbadj, hok⟩ := ih (start + 1) hrest
        refine ⟨j + 1, ?_, by simpa using Nat.succ_lt_succ hlt, by simpa using hbadj, ?_⟩
        · rw [checkIntegrityAux, if_pos hc, hj]
          have h1 : start + 1 + j = start + (j + 1) := by omega
          rw [h1]
        · intro m hm
          match m with
          | 0 => simpa using hc
          | m + 1 => simpa using hok m (by omega)
      · refine ⟨0, ?_, by simp, by simpa using hc, ?_⟩
        · rw [checkIntegrityAux, if_neg hc]
          simp
        · intro m hm
          exact absurd hm (Nat.not_lt_zero m)

/-- EOF token shape. -/
lemma makeIdentityToken_dollar (i : Nat) :
    makeIdentityToken "$" i = ⟨"$", i, i + 1, none⟩ := rfl

/-- Main invariant of the scan loop: a successful run over a `$`-free
remainder `mid` (followed by the sentinel) appends some tokens and the EOF
token, all in left-to-right order with strictly positive spans, variable
tokens carrying names that end up in the final variable set, and the final
variable set being the initial one extended by exactly the names of the
appended variable tokens, without duplicates. -/
lemma scanLoop_ok_spec :
    ∀ fuel (mid : List Char) i vars toks toks' vars',
      '$' ∉ mid →
      scanLoop fuel (mid ++ ['$']) i vars toks = .ok (toks', vars') →
      ∃ front,
        toks' = toks ++ front ++ [⟨"$", i + mid.length, i + mid.length + 1, none⟩] ∧
        List.Chain' (fun a b => a.endPos ≤ b.start)
          (front ++ [⟨"$", i + mid.length, i + mid.length + 1, none⟩]) ∧
        (∀ t ∈ front, i ≤ t.start ∧ t.start < t.endPos ∧ t.type ≠ "$" ∧
          (t.type = "variable" →
            ∃ nm, t.index = some nm ∧ (nm ≠ "__proto__" → nm ∈ vars')) ∧
          (t.type ≠ "variable" → t.index = none)) ∧
        (∀ nm, nm ∈ vars' ↔
          nm ∈ vars ∨ (nm ≠ "__proto__" ∧
            ∃ t ∈ front, t.type = "variable" ∧ t.index = some nm)) ∧
        (vars.Nodup → vars'.Nodup) := by
  intro fuel
  induction fuel with
  | zero =>
      intro mid i vars toks toks' vars' hd h
      simp [scanLoop] at h
  | succ fuel ih =>
      intro mid i vars toks toks' vars' hd h
      cases mid with
      | nil =>
          rw [List.nil_append, scanLoop, List.headD_cons, if_pos rfl,
            makeIdentityToken_dollar] at h
          injection h with h
          injection h with h1 h2
          subst h1
          subst h2
          refine ⟨[], by simp, by simp, by simp, ?_, fun hn => hn⟩
          intro nm
          simp
      | cons c mid' =>
          have hd2 : ('$' : Char) = c → False := by
            intro e
            exact hd (e ▸ List.mem_cons_self c mid')
          have hd' : '$' ∉ mid' := fun hm => hd (List.mem_cons_of_mem c hm)
          rw [List.cons_append, scanLoop, List.headD_cons,
            if_neg (fun e => hd2 e.symm)] at h
          split at h
          · rename_i v hv
            obtain ⟨hvd, hvpos⟩ := tryReadVariableName_some hv
            obtain ⟨l₂, hdec⟩ := readVarRun_decomp (c :: (mid' ++ ['$']))
            rw [← hvd] at hdec
            have hnd : '$' ∉ v.data := by
              intro hm
              have := readVarRun_chars (c :: (mid' ++ ['$'])) '$' (hvd ▸ hm)
              simp [isVarChar, isVarStartChar] at this
            have heq : (c :: mid') ++ ['$'] = v.data ++ l₂ := by
              rw [List.cons_append]
              exact hdec
            have hlen : v.data.length ≤ (c :: mid').length := run_le_mid hnd heq
            have hvl : v.length = v.data.length := rfl
            have hdrop : (c :: (mid' ++ ['$'])).drop v.length =
                (c :: mid').drop v.length ++ ['$'] := by
              rw [← List.cons_append, List.drop_append_of_le_length (hvl ▸ hlen)]
            rw [hdrop] at h
            have hd₂ : '$' ∉ (c :: mid').drop v.length :=
              fun hm => hd (List.drop_subset _ _ hm)
            obtain ⟨front', hA, hB, hC, hD, hE⟩ :=
              ih ((c :: mid').drop v.length) (i + v.length) (insertVar vars v)
                (toks ++ [makeVariableToken v i (i + v.length)]) toks' vars' hd₂ h
            have hpos : i + v.length + (List.drop v.length (c :: mid')).length =
                i + (c :: mid').length := by
              rw [List.length_drop]
              omega
            rw [hpos] at hA hB
            refine ⟨makeVariableToken v i (i + v.length) :: front', ?_, ?_, ?_, ?_, ?_⟩
            · rw [hA]
              simp
            · rw [List.cons_append]
              refine List.chain'_cons'.mpr ⟨?_, hB⟩
              intro y hy
              cases front' with
              | nil =>
                  simp at hy
                  subst hy
                  show i + v.length ≤ i + (c :: mid').length
                  omega
              | cons f fs =>
                  simp at hy
                  subst hy
                  exact (hC f (List.mem_cons_self f fs)).1
            · intro t ht
              rcases List.mem_cons.mp ht with rfl | ht'
              · refine ⟨Nat.le_refl i, by simp [makeVariableToken]; omega,
                  by simp [makeVariableToken], ?_, ?_⟩
                · intro _
                  refine ⟨v, rfl, fun hne => ?_⟩
                  exact (hD v).mpr (Or.inl (mem_insertVar.mpr (Or.inr ⟨rfl, hne⟩)))
                · intro habs
                  exact absurd rfl habs
              · obtain ⟨h1, h2, h3, h4, h5⟩ := hC t ht'
                exact ⟨by omega, h2, h3, h4, h5⟩
            · intro nm
              rw [hD nm, mem_insertVar]
              constructor
              · rintro ((hmv | ⟨rfl, hne⟩) | ⟨hne, t, ht, hP⟩)
                · exact Or.inl hmv
                · exact Or.inr ⟨hne, makeVariableToken nm i (i + nm.length),
                    List.mem_cons_self _ _, rfl, rfl⟩
                · exact Or.inr ⟨hne, t, List.mem_cons_of_mem _ ht, hP⟩
              · rintro (hmv | ⟨hne, t, ht, hP⟩)
                · exact Or.inl (Or.inl hmv)
                · rcases List.mem_cons.mp ht with rfl | ht'
                  · obtain ⟨-, hP2⟩ := hP
                    injection hP2 with hP2
                    refine Or.inl (Or.inr ⟨hP2.symm, ?_⟩)
                    rw [hP2]
                    exact hne
                  · exact Or.inr ⟨hne, t, ht', hP⟩
            · intro hn
              exact hE (insertVar_nodup hn)
          · rename_i hv
            split at h
            · rename_i t ho
              obtain ⟨htk, -, htlt, htake, -⟩ :=
                tryOpAux_some_spec (c :: (mid' ++ ['$'])) 19 t ho
              have htpos : 0 < t.length := opKeys_pos_length t htk
              have hnd : '$' ∉ t.data := opKeys_no_dollar t htk
              have heq : (c :: mid') ++ ['$'] =
                  t.data ++ (c :: (mid' ++ ['$'])).drop t.length := by
                rw [List.cons_append, ← htake]
                exact (List.take_append_drop t.length (c :: (mid' ++ ['$']))).symm
              have htl : t.length = t.data.length := rfl
              have hlen : t.data.length ≤ (c :: mid').length := run_le_mid hnd heq
              have hdrop : (c :: (mid' ++ ['$'])).drop t.length =
                  (c :: mid').drop t.length ++ ['$'] := by
                rw [← List.cons_append, List.drop_append_of_le_length (htl ▸ hlen)]
              rw [hdrop] at h
              have hd₂ : '$' ∉ (c :: mid').drop t.length :=
                fun hm => hd (List.drop_subset _ _ hm)
              obtain ⟨front', hA, hB, hC, hD, hE⟩ :=
                ih ((c :: mid').drop t.length) (i + t.length) vars
                  (toks ++ [makeIdentityToken t i]) toks' vars' hd₂ h
              have hpos : i + t.length + (List.drop t.length (c :: mid')).length =
                  i + (c :: mid').length := by
                rw [List.length_drop]
                omega
              rw [hpos] at hA hB
              refine ⟨makeIdentityToken t i :: front', ?_, ?_, ?_, ?_, ?_⟩
              · rw [hA]
                simp
              · rw [List.cons_append]
                refine List.chain'_cons'.mpr ⟨?_, hB⟩
                intro y hy
                cases front' with
                | nil =>
                    simp at hy
                    subst hy
                    show i + t.length ≤ i + (c :: mid').length
                    omega
                | cons f fs =>
                    simp at hy
                    subst hy
                    exact (hC f (List.mem_cons_self f fs)).1
              · intro u hu
                rcases List.mem_cons.mp hu with rfl | hu'
                · refine ⟨Nat.le_refl i, by simp [makeIdentityToken]; omega,
                    translate_opKeys_ne_dollar t htk, ?_, fun _ => rfl⟩
                  intro habs
                  exact absurd habs (translate_opKeys_ne_variable t htk)
                · obtain ⟨h1, h2, h3, h4, h5⟩ := hC u hu'
                  exact ⟨by omega, h2, h3, h4, h5⟩
              · intro nm
                rw [hD nm]
                constructor
                · rintro (hmv | ⟨hne, u, hu, hP⟩)
                  · exact Or.inl hmv
                  · exact Or.inr ⟨hne, u, List.mem_cons_of_mem _ hu, hP⟩
                · rintro (hmv | ⟨hne, u, hu, hP⟩)
                  · exact Or.inl hmv
                  · rcases List.mem_cons.mp hu with rfl | hu'
                    · exact absurd hP.1 (translate_opKeys_ne_variable t htk)
                    · exact Or.inr ⟨hne, u, hu', hP⟩
              · exact hE
            · rename_i ho
              split at h
              · rename_i hw
                have hdrop : (c :: (mid' ++ ['$'])).drop 1 = mid' ++ ['$'] := rfl
                rw [hdrop] at h
                obtain ⟨front', hA, hB, hC, hD, hE⟩ :=
                  ih mid' (i + 1) vars toks toks' vars' hd' h
                have hpos : i + 1 + mid'.length = i + (c :: mid').length := by
                  simp [List.length_cons]
                  omega
                rw [hpos] at hA hB
                refine ⟨front', hA, hB, ?_, hD, hE⟩
                intro t ht
                obtain ⟨h1, h2, h3, h4, h5⟩ := hC t ht
                exact ⟨by omega, h2, h3, h4, h5⟩
              · cases h

/-- A passed integrity check means every character is allowed. -/
lemma checkIntegrityAux_ok :
    ∀ (l : List Char) start, checkIntegrityAux l start = .ok () →
      ∀ c ∈ l, isOkayChar c = true := by
  intro l
  induction l with
  | nil => intro start _ c hc; simp at hc
  | cons d rest ih =>
      intro start h c hc
      by_cases hd : isOkayChar d = true
      · rw [checkIntegrityAux, if_pos hd] at h
        rcases List.mem_cons.mp hc with rfl | hc'
        · exact hd
        · exact ih (start + 1) h c hc'
      · rw [checkIntegrityAux, if_neg hd] at h
        cases h

/-- The sentinel character is not an allowed input character, so an input
that passes the integrity check contains no `$`. -/
lemma no_dollar_of_checkIntegrity {input : List Char}
    (h : checkIntegrity input = .ok ()) : '$' ∉ input := by
  intro hm
  have hok := checkIntegrityAux_ok input 0 h '$' hm
  have : isOkayChar '$' = false := by decide
  rw [this] at hok
  cases hok

/-- Inversion of a successful `scan`: the integrity check passed, the
preliminary scan succeeded, and the result is its renumbering. -/
lemma scan_ok_inversion {input : List Char} {toks : List Token}
    {vars : List String} (h : scan input = .ok (toks, vars)) :
    checkIntegrity input = .ok () ∧
    ∃ ptoks pvars, preliminaryScan input = .ok (ptoks, pvars) ∧
      toks = ptoks.map (numberToken (sortStrings pvars)) ∧
      vars = sortStrings pvars := by
  unfold scan at h
  split at h
  · cases h
  · rename_i u hci
    cases u
    split at h
    · cases h
    · rename_i p hp
      obtain ⟨ptoks, pvars⟩ := p
      injection h with h
      refine ⟨hci, ptoks, pvars, hp, ?_, ?_⟩
      · have := congrArg Prod.fst h
        simpa [numberVariables] using this.symm
      · have := congrArg Prod.snd h
        simpa [numberVariables] using this.symm

/-- `numberVariables` keeps a token's type and span. -/
lemma numberToken_fields (vt : List String) (t : PrelimToken) :
    (numberToken vt t).type = t.type ∧ (numberToken vt t).start = t.start ∧
    (numberToken vt t).endPos = t.endPos := by
  unfold numberToken
  split <;> simp

/-- The EOF token passes through `numberVariables` unchanged. -/
lemma numberToken_dollar (vt : List String) (p : Nat) :
    numberToken vt ⟨"$", p, p + 1, none⟩ = ⟨"$", p, p + 1, none⟩ := rfl

/-! ## Lemmas about the lexicographic order and the sort -/

/-- Head/tail characterization of the strict code-unit order. -/
lemma lexLtChars_cons_iff {a b : Char} {as bs : List Char} :
    lexLtChars (a :: as) (b :: bs) = true ↔
      a < b ∨ (a = b ∧ lexLtChars as bs = true) := by
  rw [lexLtChars]
  by_cases h1 : a < b
  · simp [h1]
  · by_cases h2 : b < a
    · rw [if_neg h1, if_pos h2]
      constructor
      · intro h; cases h
      · rintro (h | ⟨rfl, h⟩)
        · exact absurd h h1
        · exact absurd h2 (lt_irrefl a)
    · have hab : a = b := le_antisymm (not_lt.mp h2) (not_lt.mp h1)
      subst hab
      rw [if_neg h1, if_neg h2]
      simp

/-- The strict code-unit order is irreflexive. -/
lemma lexLtChars_irrefl : ∀ l : List Char, lexLtChars l l = false := by
  intro l
  induction l with
  | nil => rfl
  | cons a as ih =>
      cases h : lexLtChars (a :: as) (a :: as)
      · rfl
      · rcases lexLtChars_cons_iff.mp h with h' | ⟨-, h'⟩
        · exact absurd h' (lt_irrefl a)
        · rw [ih] at h'; cases h'

/-- The strict code-unit order is transitive. -/
lemma lexLtChars_trans :
    ∀ l₁ l₂ l₃ : List Char, lexLtChars l₁ l₂ = true → lexLtChars l₂ l₃ = true →
      lexLtChars l₁ l₃ = true := by
  intro l₁
  induction l₁ with
  | nil =>
      intro l₂ l₃ h1 h2
      cases l₂ with
      | nil => cases h1
      | cons b bs =>
          cases l₃ with
          | nil => cases h2
          | cons c cs => rfl
  | cons a as ih =>
      intro l₂ l₃ h1 h2
      cases l₂ with
      | nil => cases h1
      | cons b bs =>
          cases l₃ with
          | nil => cases h2
          | cons c cs =>
              rcases lexLtChars_cons_iff.mp h1 with hab | ⟨rfl, hab⟩ <;>
                rcases lexLtChars_cons_iff.mp h2 with hbc | ⟨hbc, hbc'⟩
              · exact lexLtChars_cons_iff.mpr (Or.inl (lt_trans hab hbc))
              · subst hbc
                exact lexLtChars_cons_iff.mpr (Or.inl hab)
              · exact lexLtChars_cons_iff.mpr (Or.inl hbc)
              · subst hbc
                exact lexLtChars_cons_iff.mpr (Or.inr ⟨rfl, ih bs cs hab hbc'⟩)

/-- Any two character lists compare or are equal. -/
lemma lexLtChars_connex :
    ∀ l₁ l₂ : List Char,
      lexLtChars l₁ l₂ = true ∨ lexLtChars l₂ l₁ = true ∨ l₁ = l₂ := by
  intro l₁
  induction l₁ with
  | nil =>
      intro l₂
      cases l₂ with
      | nil => exact Or.inr (Or.inr rfl)
      | cons b bs => exact Or.inl rfl
  | cons a as ih =>
      intro l₂
      cases l₂ with
      | nil => exact Or.inr (Or.inl rfl)
      | cons b bs =>
          rcases lt_trichotomy a b with hab | rfl | hba
          · exact Or.inl (lexLtChars_cons_iff.mpr (Or.inl hab))
          · rcases ih bs with h | h | rfl
            · exact Or.inl (lexLtChars_cons_iff.mpr (Or.inr ⟨rfl, h⟩))
            · exact Or.inr (Or.inl (lexLtChars_cons_iff.mpr (Or.inr ⟨rfl, h⟩)))
            · exact Or.inr (Or.inr rfl)
          · exact Or.inr (Or.inl (lexLtChars_cons_iff.mpr (Or.inl hba)))

/-- Equal `data` means equal strings. -/
lemma string_eq_of_data {a b : String} (h : a.data = b.data) : a = b := by
  cases a
  cases b
  exact congrArg String.mk h

/-- Irreflexivity at the string level. -/
lemma lexLt_irrefl (a : String) : lexLt a a = false := lexLtChars_irrefl a.data

/-- Transitivity at the string level. -/
lemma lexLt_trans {a b c : String} (h1 : lexLt a b = true) (h2 : lexLt b c = true) :
    lexLt a c = true := lexLtChars_trans a.data b.data c.data h1 h2

/-- Asymmetry at the string level. -/
lemma lexLt_asymm {a b : String} (h : lexLt a b = true) : lexLt b a = false := by
  cases h' : lexLt b a
  · rfl
  · have := lexLt_trans h h'
    rw [lexLt, lexLtChars_irrefl] at this
    cases this

/-- The reflexive order is total. -/
lemma lexLe_total (a b : String) : lexLe a b = true ∨ lexLe b a = true := by
  rcases lexLtChars_connex a.data b.data with h | h | h
  · exact Or.inl (by simp [lexLe, lexLt, h])
  · exact Or.inr (by simp [lexLe, lexLt, h])
  · exact Or.inl (by simp [lexLe, string_eq_of_data h])

/-- The reflexive order is transitive. -/
lemma lexLe_trans {a b c : String} (h1 : lexLe a b = true) (h2 : lexLe b c = true) :
    lexLe a c = true := by
  rw [lexLe, Bool.or_eq_true, beq_iff_eq] at h1 h2 ⊢
  rcases h1 with h1 | rfl
  · rcases h2 with h2 | rfl
    · exact Or.inl (lexLt_trans h1 h2)
    · exact Or.inl h1
  · exact h2

/-- A weak inequality between distinct strings is strict. -/
lemma lexLt_of_le_ne {a b : String} (hle : lexLe a b = true) (hne : a ≠ b) :
    lexLt a b = true := by
  rw [lexLe, Bool.or_eq_true, beq_iff_eq] at hle
  rcases hle with h | rfl
  · exact h
  · exact absurd rfl hne

/-- Membership through `insertSorted`. -/
lemma mem_insertSorted {s x : String} :
    ∀ l, x ∈ insertSorted s l ↔ x = s ∨ x ∈ l := by
  intro l
  induction l with
  | nil => simp [insertSorted]
  | cons t rest ih =>
      rw [insertSorted]
      by_cases h : lexLe s t = true
      · rw [if_pos h]
        simp
      · rw [if_neg h]
        simp only [List.mem_cons, ih]
        tauto

/-- `insertSorted` is a permutation of consing. -/
lemma insertSorted_perm (s : String) : ∀ l, (insertSorted s l).Perm (s :: l) := by
  intro l
  induction l with
  | nil => exact List.Perm.refl _
  | cons t rest ih =>
      rw [insertSorted]
      by_cases h : lexLe s t = true
      · rw [if_pos h]
      · rw [if_neg h]
        exact (ih.cons t).trans (List.Perm.swap s t rest)

/-- `insertSorted` preserves sortedness. -/
lemma pairwise_insertSorted {s : String} :
    ∀ l, l.Pairwise (fun a b => lexLe a b = true) →
      (insertSorted s l).Pairwise (fun a b => lexLe a b = true) := by
  intro l
  induction l with
  | nil => simp [insertSorted]
  | cons t rest ih =>
      intro hp
      obtain ⟨ht, hrest⟩ := List.pairwise_cons.mp hp
      rw [insertSorted]
      by_cases h : lexLe s t = true
      · rw [if_pos h]
        refine List.pairwise_cons.mpr ⟨?_, hp⟩
        intro y hy
        rcases List.mem_cons.mp hy with rfl | hy'
        · exact h
        · exact lexLe_trans h (ht y hy')
      · rw [if_neg h]
        refine List.pairwise_cons.mpr ⟨?_, ih hrest⟩
        intro y hy
        rcases (mem_insertSorted rest).mp hy with hy0 | hy'
        · rw [hy0]
          rcases lexLe_total s t with hst | hts
          · exact absurd hst h
          · exact hts
        · exact ht y hy'

/-- The sort of `numberVariables` produces a weakly sorted list. -/
lemma sortStrings_pairwise :
    ∀ l, (sortStrings l).Pairwise (fun a b => lexLe a b = true) := by
  intro l
  induction l with
  | nil => simp [sortStrings]
  | cons s rest ih => exact pairwise_insertSorted (sortStrings rest) ih

/-- The sort of `numberVariables` is a permutation of its input. -/
lemma sortStrings_perm : ∀ l, (sortStrings l).Perm l := by
  intro l
  induction l with
  | nil => exact List.Perm.refl _
  | cons s rest ih =>
      exact (insertSorted_perm s (sortStrings rest)).trans (ih.cons s)

/-- In a strictly sorted list the position of an element equals its rank:
the number of elements strictly below it. -/
lemma sorted_filter_rank :
    ∀ l : List String, l.Pairwise (fun a b => lexLt a b = true) →
      ∀ k (hk : k < l.length),
        (l.filter (fun w => lexLt w (l.get ⟨k, hk⟩))).length = k := by
  intro l
  induction l with
  | nil => intro _ k hk; simp at hk
  | cons a rest ih =>
      intro hp k hk
      obtain ⟨ha, hrest⟩ := List.pairwise_cons.mp hp
      match k with
      | 0 =>
          have hfilter : (a :: rest).filter (fun w => lexLt w a) = [] := by
            rw [List.filter_eq_nil_iff]
            intro w hw
            rcases List.mem_cons.mp hw with rfl | hw'
            · simp [lexLt_irrefl]
            · simp [lexLt_asymm (ha w hw')]
          simpa using congrArg List.length hfilter
      | k + 1 =>
          have hmem : rest.get ⟨k, by simpa using Nat.lt_of_succ_lt_succ hk⟩ ∈ rest :=
            List.get_mem rest k _
          have hlt : lexLt a (rest.get ⟨k, by simpa using Nat.lt_of_succ_lt_succ hk⟩) = true :=
            ha _ hmem
          have hget : (a :: rest).get ⟨k + 1, hk⟩ =
              rest.get ⟨k, by simpa using Nat.lt_of_succ_lt_succ hk⟩ := rfl
          rw [hget, List.filter_cons_of_pos (by simpa using hlt)]
          simpa using ih hrest k (by simpa using Nat.lt_of_succ_lt_succ hk)

/-- Position and content of the inverted variable lookup. -/
lemma idxOfName_spec :
    ∀ (l : List String) nm, nm ∈ l →
      idxOfName l nm < l.length ∧ l.get? (idxOfName l nm) = some nm := by
  intro l
  induction l with
  | nil => intro nm h; simp at h
  | cons t rest ih =>
      intro nm hm
      rw [idxOfName]
      by_cases h : t = nm
      · rw [if_pos h]
        subst h
        simp
      · rw [if_neg h]
        have hm' : nm ∈ rest := by
          rcases List.mem_cons.mp hm with rfl | hm'
          · exact absurd rfl h
          · exact hm'
        obtain ⟨h1, h2⟩ := ih nm hm'
        exact ⟨by simpa using Nat.succ_lt_succ h1, by simpa using h2⟩

/-! ## Claim theorems -/

/-- C2: `evaluate` realizes the truth tables of the connectives:
`True`→true, `False`→false, `Not`→negation, `And`→conjunction,
`Or`→disjunction, `Implies`→material implication `¬l ∨ r`,
`Iff`→equality, `Xor`→inequality, `Variable i`→`assignment[i]`. -/
theorem c2_evaluate_semantics :
    (∀ a, evaluate .trueNode a = true) ∧
    (∀ a, evaluate .falseNode a = false) ∧
    (∀ x a, evaluate (.negateNode x) a = !(evaluate x a)) ∧
    (∀ l r a, evaluate (.andNode l r) a = (evaluate l a && evaluate r a)) ∧
    (∀ l r a, evaluate (.orNode l r) a = (evaluate l a || evaluate r a)) ∧
    (∀ l r a, evaluate (.impliesNode l r) a = (!(evaluate l a) || evaluate r a)) ∧
    (∀ l r a, evaluate (.iffNode l r) a = (evaluate l a == evaluate r a)) ∧
    (∀ l r a, evaluate (.xorNode l r) a = (evaluate l a != evaluate r a)) ∧
    (∀ (i : Nat) (a : List Bool) (h : i < a.length),
      evaluate (.variableNode i) a = a.get ⟨i, h⟩) := by
  repeat' apply And.intro
  all_goals first
    | (intros; rfl)
    | (intro i a h
       simp [evaluate, List.getD_eq_getElem?_getD, List.getElem?_eq_getElem h,
         List.get_eq_getElem])

/-- C2 witness: the variable clause applied at `i = 0`, `a = [true]`. -/
theorem c2_evaluate_semantics_witness :
    0 < [true].length ∧ evaluate (.variableNode 0) [true] = [true].get ⟨0, by decide⟩ :=
  ⟨by decide, c2_evaluate_semantics.2.2.2.2.2.2.2.2 0 [true] (by decide)⟩

/-- C3 (counterexample): the claim says the variable table of every
accepted input is exactly the set of distinct variable names encountered,
each VARIABLE token resolved to its rank.  The input `__proto__` is a
legal variable name and is accepted, but `variableSet["__proto__"] = true`
hits the inherited prototype setter of the JS object literal and stores
nothing, so the program returns an *empty* variable table, and the
renumbering lookup yields `Object.prototype` (no numeric index) for the
token. -/
theorem c3_counterexample :
    preliminaryScan "__proto__".toList =
      .ok ([⟨"variable", 0, 9, some "__proto__"⟩, ⟨"$", 9, 10, none⟩], []) ∧
    scan "__proto__".toList =
      .ok ([⟨"variable", 0, 9, none⟩, ⟨"$", 9, 10, none⟩], []) ∧
    "__proto__" ∉ ([] : List String) :=
  ⟨rfl, rfl, by decide⟩

/-- C3 (amended): for every input accepted by `scan`, the returned
variable table is exactly the set of distinct variable names encountered
*other than `__proto__`* (that one name is silently dropped by the
inherited prototype setter of the JS object used as the variable set),
strictly sorted in code-unit (lexicographic) order with dense contiguous
indices each equal to the name's lexicographic rank (the number of table
entries strictly below it), regardless of first-appearance order; every
VARIABLE token carrying a name other than `__proto__` has its index
resolved to that rank, and a `__proto__` token gets no numeric index. -/
theorem c3_variable_table (input : List Char) (toks : List Token)
    (vars : List String) (h : scan input = .ok (toks, vars)) :
    vars.Pairwise (fun a b => lexLt a b = true) ∧
    (∀ k (hk : k < vars.length),
      (vars.filter (fun w => lexLt w (vars.get ⟨k, hk⟩))).length = k) ∧
    (∃ ptoks pvars, preliminaryScan input = .ok (ptoks, pvars) ∧
      vars.Perm pvars ∧
      (∀ nm, nm ∈ vars ↔ nm ≠ "__proto__" ∧
        ∃ pt ∈ ptoks, pt.type = "variable" ∧ pt.index = some nm) ∧
      toks = ptoks.map (numberToken vars) ∧
      (∀ pt ∈ ptoks, pt.type = "variable" →
        ∃ nm, pt.index = some nm ∧
          (nm ≠ "__proto__" →
            nm ∈ vars ∧
            (numberToken vars pt).index = some (idxOfName vars nm) ∧
            idxOfName vars nm < vars.length ∧
            vars.get? (idxOfName vars nm) = some nm) ∧
          (nm = "__proto__" →
            nm ∉ vars ∧ (numberToken vars pt).index = none))) := by
  obtain ⟨hci, ptoks, pvars, hp, htoks, hvars⟩ := scan_ok_inversion h
  have hnd : '$' ∉ input := no_dollar_of_checkIntegrity hci
  have hp' := hp
  unfold preliminaryScan at hp'
  obtain ⟨front, hA, hB, hC, hD, hE⟩ :=
    scanLoop_ok_spec (input.length + 2) input 0 [] [] ptoks pvars hnd hp'
  have hpnodup : pvars.Nodup := hE List.nodup_nil
  have hperm : vars.Perm pvars := hvars ▸ sortStrings_perm pvars
  have hvnodup : vars.Nodup := hperm.symm.nodup hpnodup
  have hsortedLe : vars.Pairwise (fun a b => lexLe a b = true) :=
    hvars ▸ sortStrings_pairwise pvars
  have hsorted : vars.Pairwise (fun a b => lexLt a b = true) :=
    (hsortedLe.and hvnodup).imp (fun hab => lexLt_of_le_ne hab.1 hab.2)
  have hproto : "__proto__" ∉ pvars := by
    intro hm
    rcases (hD "__proto__").mp hm with hm' | ⟨hne, -⟩
    · simp at hm'
    · exact hne rfl
  refine ⟨hsorted, fun k hk => sorted_filter_rank vars hsorted k hk,
    ptoks, pvars, hp, hperm, ?_, by rw [htoks, hvars], ?_⟩
  · intro nm
    rw [hperm.mem_iff, hD nm]
    simp only [List.not_mem_nil, false_or]
    constructor
    · rintro ⟨hne, t, ht, hP⟩
      refine ⟨hne, t, ?_, hP⟩
      rw [hA]
      simp [ht]
    · rintro ⟨hne, pt, hpt, hP⟩
      rw [hA] at hpt
      rcases List.mem_append.mp hpt with hpt' | hpt'
      · rcases List.mem_append.mp hpt' with hpt'' | hpt''
        · simp at hpt''
        · exact ⟨hne, pt, hpt'', hP⟩
      · have : pt.type = "$" := by
          simp at hpt'
          rw [hpt']
        rw [this] at hP
        exact absurd hP.1 (by decide)
  · intro pt hpt hptvar
    rw [hA] at hpt
    have hptf : pt ∈ front := by
      rcases List.mem_append.mp hpt with hpt' | hpt'
      · rcases List.mem_append.mp hpt' with hpt'' | hpt''
        · simp at hpt''
        · exact hpt''
      · exfalso
        have : pt.type = "$" := by
          simp at hpt'
          rw [hpt']
        rw [this] at hptvar
        exact absurd hptvar (by decide)
    obtain ⟨-, -, -, hvarcl, -⟩ := hC pt hptf
    obtain ⟨nm, hidx, hnmcl⟩ := hvarcl hptvar
    refine ⟨nm, hidx, ?_, ?_⟩
    · intro hne
      have hnmv : nm ∈ vars := hperm.mem_iff.mpr (hnmcl hne)
      obtain ⟨hlt, hget⟩ := idxOfName_spec vars nm hnmv
      refine ⟨hnmv, ?_, hlt, hget⟩
      simp [numberToken, variableSetLookup, hptvar, hidx, hne, hnmv]
    · rintro rfl
      refine ⟨fun hm => hproto (hperm.mem_iff.mp hm), ?_⟩
      simp [numberToken, variableSetLookup, hptvar, hidx]

/-- C3 witness: the amended theorem applied to `z /\ a /\ m`, whose
variable table is `["a", "m", "z"]` with `z` resolved to index 2, `a` to 0
and `m` to 1, although `z` appears first in the text. -/
theorem c3_variable_table_witness :
    scan "z /\\ a /\\ m".toList =
      .ok ([⟨"variable", 0, 1, some 2⟩, ⟨"/\\", 2, 4, none⟩,
            ⟨"variable", 5, 6, some 0⟩, ⟨"/\\", 7, 9, none⟩,
            ⟨"variable", 10, 11, some 1⟩, ⟨"$", 11, 12, none⟩],
           ["a", "m", "z"]) ∧
    (List.Pairwise (fun a b => lexLt a b = true) ["a", "m", "z"] ∧
     (∀ k (hk : k < (["a", "m", "z"] : List String).length),
       ((["a", "m", "z"] : List String).filter
         (fun w => lexLt w ((["a", "m", "z"] : List String).get ⟨k, hk⟩))).length = k) ∧
     (∃ ptoks pvars, preliminaryScan "z /\\ a /\\ m".toList = .ok (ptoks, pvars) ∧
       (["a", "m", "z"] : List String).Perm pvars ∧
       (∀ nm, nm ∈ (["a", "m", "z"] : List String) ↔ nm ≠ "__proto__" ∧
         ∃ pt ∈ ptoks, pt.type = "variable" ∧ pt.index = some nm) ∧
       ([⟨"variable", 0, 1, some 2⟩, ⟨"/\\", 2, 4, none⟩,
         ⟨"variable", 5, 6, some 0⟩, ⟨"/\\", 7, 9, none⟩,
         ⟨"variable", 10, 11, some 1⟩, ⟨"$", 11, 12, none⟩] : List Token) =
           ptoks.map (numberToken ["a", "m", "z"]) ∧
       (∀ pt ∈ ptoks, pt.type = "variable" →
         ∃ nm, pt.index = some nm ∧
           (nm ≠ "__proto__" →
             nm ∈ (["a", "m", "z"] : List String) ∧
             (numberToken ["a", "m", "z"] pt).index =
               some (idxOfName ["a", "m", "z"] nm) ∧
             idxOfName ["a", "m", "z"] nm < (["a", "m", "z"] : List String).length ∧
             (["a", "m", "z"] : List String).get? (idxOfName ["a", "m", "z"] nm) =
               some nm) ∧
           (nm = "__proto__" →
             nm ∉ (["a", "m", "z"] : List String) ∧
             (numberToken ["a", "m", "z"] pt).index = none)))) :=
  ⟨rfl, c3_variable_table "z /\\ a /\\ m".toList _ _ rfl⟩

/-- C4 (counterexample): the claim says the EOF token has
`start == end`; scanning the empty input yields the EOF token with
`start = 0` and `end = 1`, a one-character span over the sentinel. -/
theorem c4_counterexample :
    scan [] = .ok ([⟨"$", 0, 1, none⟩], []) ∧
    ¬ ((⟨"$", 0, 1, none⟩ : Token).start = (⟨"$", 0, 1, none⟩ : Token).endPos) :=
  ⟨rfl, by decide⟩

/-- C4 (amended): for every input accepted by `scan`, the tokens appear in
left-to-right input order (each token ends no later than the next starts),
the final token is always EOF, every non-EOF token has `start < end`, and
the EOF token spans exactly the internal one-character sentinel:
`start = input.length` and `end = start + 1` (so `start ≠ end`). -/
theorem c4_token_stream_invariants (input : List Char) (toks : List Token)
    (vars : List String) (h : scan input = .ok (toks, vars)) :
    ∃ front, toks = front ++ [⟨"$", input.length, input.length + 1, none⟩] ∧
      List.Chain' (fun a b => a.endPos ≤ b.start) toks ∧
      (∀ t ∈ front, t.type ≠ "$" ∧ t.start < t.endPos) := by
  obtain ⟨hci, ptoks, pvars, hp, htoks, hvars⟩ := scan_ok_inversion h
  have hnd : '$' ∉ input := no_dollar_of_checkIntegrity hci
  unfold preliminaryScan at hp
  obtain ⟨front, hA, hB, hC, -, -⟩ :=
    scanLoop_ok_spec (input.length + 2) input 0 [] [] ptoks pvars hnd hp
  rw [Nat.zero_add] at hA hB
  subst htoks
  subst hA
  refine ⟨front.map (numberToken (sortStrings pvars)), ?_, ?_, ?_⟩
  · rw [List.map_append, List.map_singleton, numberToken_dollar]
    simp
  · apply (List.chain'_map (numberToken (sortStrings pvars))).mpr
    refine hB.imp ?_
    intro a b hab
    obtain ⟨-, -, hae⟩ := numberToken_fields (sortStrings pvars) a
    obtain ⟨-, hbs, -⟩ := numberToken_fields (sortStrings pvars) b
    rw [hae, hbs]
    exact hab
  · intro t ht
    obtain ⟨pt, hpt, rfl⟩ := List.mem_map.mp ht
    obtain ⟨-, hlt, hns, -, -⟩ := hC pt hpt
    obtain ⟨ht1, ht2, ht3⟩ := numberToken_fields (sortStrings pvars) pt
    rw [ht1, ht2, ht3]
    exact ⟨hns, hlt⟩

/-- C4 witness: the amended statement applied to the accepted input `p`. -/
theorem c4_token_stream_invariants_witness :
    scan ['p'] = .ok ([⟨"variable", 0, 1, some 0⟩, ⟨"$", 1, 2, none⟩], ["p"]) ∧
    (∃ front,
      ([⟨"variable", 0, 1, some 0⟩, ⟨"$", 1, 2, none⟩] : List Token) =
        front ++ [⟨"$", ['p'].length, ['p'].length + 1, none⟩] ∧
      List.Chain' (fun a b => a.endPos ≤ b.start)
        ([⟨"variable", 0, 1, some 0⟩, ⟨"$", 1, 2, none⟩] : List Token) ∧
      (∀ t ∈ front, t.type ≠ "$" ∧ t.start < t.endPos)) :=
  ⟨rfl, c4_token_stream_invariants ['p'] _ _ rfl⟩

/-- C5: the factored renderer.  (1) A render starting at counter `c`
advances the counter by the number of binary nodes and appends to `keys`
exactly the labels `labelChar c, labelChar (c+1), …`, one per binary node,
in strict visitation order; in particular the map gains exactly one entry
per binary node.  (2) Every binary node first renders both operands
recursively, then mints the next label, stores
`(own latex, own evaluate(assignment))` under it, and returns the bare
letter.  (3) For `(p ∧ q) ∨ r`, label `A` goes to `p ∧ q` (with its
rendered LaTeX and value) before label `B` is assigned to the outer `Or`. -/
theorem c5_factored_label_allocation :
    (∀ n v a c ks,
        (toLatexVar n v a (c, ks)).2.1 = c + binCount n ∧
        ((toLatexVar n v a (c, ks)).2.2).map Prod.fst =
          ks.map Prod.fst ++ (List.range (binCount n)).map (fun j => labelChar (c + j)) ∧
        ((toLatexVar n v a (c, ks)).2.2).length = ks.length + binCount n) ∧
    (∀ l r v a s,
        toLatexVar (.andNode l r) v a s =
          (labelChar (toLatexVar r v a (toLatexVar l v a s).2).2.1,
            ((toLatexVar r v a (toLatexVar l v a s).2).2.1 + 1,
             (toLatexVar r v a (toLatexVar l v a s).2).2.2 ++
               [(labelChar (toLatexVar r v a (toLatexVar l v a s).2).2.1,
                 "(" ++ (toLatexVar l v a s).1 ++ " \\land " ++
                   (toLatexVar r v a (toLatexVar l v a s).2).1 ++ ")",
                 evaluate (.andNode l r) a)]))) ∧
    (∀ l r v a s,
        toLatexVar (.orNode l r) v a s =
          (labelChar (toLatexVar r v a (toLatexVar l v a s).2).2.1,
            ((toLatexVar r v a (toLatexVar l v a s).2).2.1 + 1,
             (toLatexVar r v a (toLatexVar l v a s).2).2.2 ++
               [(labelChar (toLatexVar r v a (toLatexVar l v a s).2).2.1,
                 "(" ++ (toLatexVar l v a s).1 ++ " \\lor " ++
                   (toLatexVar r v a (toLatexVar l v a s).2).1 ++ ")",
                 evaluate (.orNode l r) a)]))) ∧
    (∀ l r v a s,
        toLatexVar (.impliesNode l r) v a s =
          (labelChar (toLatexVar r v a (toLatexVar l v a s).2).2.1,
            ((toLatexVar r v a (toLatexVar l v a s).2).2.1 + 1,
             (toLatexVar r v a (toLatexVar l v a s).2).2.2 ++
               [(labelChar (toLatexVar r v a (toLatexVar l v a s).2).2.1,
                 "(" ++ (toLatexVar l v a s).1 ++ " \\implies " ++
                   (toLatexVar r v a (toLatexVar l v a s).2).1 ++ ")",
                 evaluate (.impliesNode l r) a)]))) ∧
    (∀ l r v a s,
        toLatexVar (.iffNode l r) v a s =
          (labelChar (toLatexVar r v a (toLatexVar l v a s).2).2.1,
            ((toLatexVar r v a (toLatexVar l v a s).2).2.1 + 1,
             (toLatexVar r v a (toLatexVar l v a s).2).2.2 ++
               [(labelChar (toLatexVar r v a (toLatexVar l v a s).2).2.1,
                 "(" ++ (toLatexVar l v a s).1 ++ " \\iff " ++
                   (toLatexVar r v a (toLatexVar l v a s).2).1 ++ ")",
                 evaluate (.iffNode l r) a)]))) ∧
    (∀ l r v a s,
        toLatexVar (.xorNode l r) v a s =
          (labelChar (toLatexVar r v a (toLatexVar l v a s).2).2.1,
            ((toLatexVar r v a (toLatexVar l v a s).2).2.1 + 1,
             (toLatexVar r v a (toLatexVar l v a s).2).2.2 ++
               [(labelChar (toLatexVar r v a (toLatexVar l v a s).2).2.1,
                 "(" ++ (toLatexVar l v a s).1 ++ " \\oplus " ++
                   (toLatexVar r v a (toLatexVar l v a s).2).1 ++ ")",
                 evaluate (.xorNode l r) a)]))) ∧
    (toLatexVar (.orNode (.andNode (.variableNode 0) (.variableNode 1)) (.variableNode 2))
        ["p", "q", "r"] [true, true, false] (0, []) =
      ("B", (2, [("A", "(p \\land q)", true), ("B", "(A \\lor r)", true)]))) := by
  constructor
  · intro n v a c ks
    obtain ⟨h1, h2⟩ := toLatexVar_counter_labels n v a c ks
    refine ⟨h1, h2, ?_⟩
    have := congrArg List.length h2
    simpa using this
  · repeat' apply And.intro
    all_goals intros
    all_goals rfl

/-- C6 (counterexample): the claim says every leaf renders identically
under the factored renderer and `toLatex`; the `True` leaf does not:
`toLatexVar` yields `\top` where `toLatex` yields `T`. -/
theorem c6_counterexample :
    (toLatexVar .trueNode [] [] (0, [])).1 ≠ toLatex .trueNode [] := by
  decide

/-- C6 (amended): `Variable` leaves render identically under
`toLatexVar` and `toLatex`; `True` and `False` render as `\top` and
`\bot` in the factored mode versus `T` and `F` in `toLatex`; a `Not`
node applies the same `\neg ` prefix to the factored rendering of its
operand that `toLatex` applies to the plain rendering; none of these
nodes allocates a label or changes the render state. -/
theorem c6_leaf_unary_rendering :
    (∀ i v a s, (toLatexVar (.variableNode i) v a s).1 = toLatex (.variableNode i) v ∧
        (toLatexVar (.variableNode i) v a s).2 = s) ∧
    (∀ v a s, toLatexVar .trueNode v a s = ("\\top", s)) ∧
    (∀ v, toLatex .trueNode v = "T") ∧
    (∀ v a s, toLatexVar .falseNode v a s = ("\\bot", s)) ∧
    (∀ v, toLatex .falseNode v = "F") ∧
    (∀ u v a s, (toLatexVar (.negateNode u) v a s).1 = "\\neg " ++ (toLatexVar u v a s).1 ∧
        (toLatexVar (.negateNode u) v a s).2 = (toLatexVar u v a s).2) ∧
    (∀ u v, toLatex (.negateNode u) v = "\\neg " ++ toLatex u v) :=
  by
  repeat' apply And.intro
  all_goals intros
  all_goals first | exact ⟨rfl, rfl⟩ | rfl

/-- C7: an input containing a disallowed character makes `scan` fail with
the `Illegal character` error whose span is exactly one character
(`end = start + 1`), located at the first disallowed character; the input
`p /\ $` fails at `start = 5`, `end = 6`. -/
theorem c7_illegal_character_span :
    (∀ input : List Char, (∃ c ∈ input, isOkayChar c = false) →
        ∃ j, scan input = .error ⟨"Illegal character", j, j + 1⟩ ∧
          j < input.length ∧ isOkayChar (input.getD j '\u0000') = false ∧
          ∀ m < j, isOkayChar (input.getD m '\u0000') = true) ∧
    (scan "p /\\ $".toList = .error ⟨"Illegal character", 5, 6⟩) := by
  refine ⟨?_, rfl⟩
  intro input hbad
  obtain ⟨j, hj, hlt, hbadj, hok⟩ := checkIntegrityAux_error_of_bad input 0 hbad
  refine ⟨j, ?_, hlt, hbadj, hok⟩
  have hint : checkIntegrity input = .error ⟨"Illegal character", j, j + 1⟩ := by
    simpa [checkIntegrity] using hj
  simp [scan, hint]

/-- C7 witness: the general statement applied to the input `p /\ $`. -/
theorem c7_illegal_character_span_witness :
    (∃ c ∈ "p /\\ $".toList, isOkayChar c = false) ∧
    (∃ j, scan "p /\\ $".toList = .error ⟨"Illegal character", j, j + 1⟩ ∧
      j < "p /\\ $".toList.length ∧
      isOkayChar ("p /\\ $".toList.getD j '\u0000') = false ∧
      ∀ m < j, isOkayChar ("p /\\ $".toList.getD m '\u0000') = true) :=
  ⟨by decide, c7_illegal_character_span.1 "p /\\ $".toList (by decide)⟩

/-- C8: `tryReadOperator` implements longest-match-first over the alias
table, length 19 down to 1: a successful read returns an alias spelling
that occurs at the current position (with at least one character of input
beyond it — inside `scan` the appended `$` sentinel always provides that
character) and no longer alias occurs there; conversely if any alias
occurs at the position, the read succeeds; `<->` is read as one token
rather than a shorter fragment. -/
theorem c8_longest_match_operator :
    (∀ rest s, tryReadOperator rest = some s →
        s ∈ opKeys ∧ 0 < s.length ∧ s.length < rest.length ∧
        rest.take s.length = s.data ∧
        (∀ t ∈ opKeys, t.length < rest.length → rest.take t.length = t.data →
          t.length ≤ s.length)) ∧
    (∀ rest, (∃ t ∈ opKeys, t.length < rest.length ∧ rest.take t.length = t.data) →
        tryReadOperator rest ≠ none) ∧
    (tryReadOperator "<-> q".toList = some "<->") := by
  refine ⟨?_, ?_, by decide⟩
  · intro rest s h
    obtain ⟨h1, _, h3, h4, h5⟩ := tryOpAux_some_spec rest 19 s h
    exact ⟨h1, opKeys_pos_length s h1, h3, h4,
      fun t ht htl hm => h5 t ht (opKeys_length_le t ht) htl hm⟩
  · intro rest ⟨t, ht, htl, hm⟩ hnone
    exact tryOpAux_none_spec rest 19 hnone t ht (opKeys_length_le t ht) htl hm

/-- C8 witness: the longest-match statement applied to the input
`<-> q` at its start, where the read alias is `<->`. -/
theorem c8_longest_match_operator_witness :
    "<->" ∈ opKeys ∧ 0 < "<->".length ∧ "<->".length < "<-> q".toList.length ∧
    "<-> q".toList.take "<->".length = "<->".data ∧
    (∀ t ∈ opKeys, t.length < "<-> q".toList.length →
      "<-> q".toList.take t.length = t.data → t.length ≤ "<->".length) :=
  c8_longest_match_operator.1 "<-> q".toList "<->" (by decide)

/-- C9: `toString` and `toLatex` wrap every binary node in exactly one
pair of parentheses with the operator's fixed glyph between the rendered
operands (no precedence-based elision), and substitute the caller's
variable names for indices; the tree of `p ∧ q ∨ r` (AND under OR)
renders as `((p ∧ q) ∨ r)` in both notations. -/
theorem c9_fully_parenthesized_rendering :
    (∀ l r v, toString (.andNode l r) v =
        "(" ++ toString l v ++ " &and; " ++ toString r v ++ ")") ∧
    (∀ l r v, toString (.orNode l r) v =
        "(" ++ toString l v ++ " &or; " ++ toString r v ++ ")") ∧
    (∀ l r v, toString (.impliesNode l r) v =
        "(" ++ toString l v ++ " &rarr; " ++ toString r v ++ ")") ∧
    (∀ l r v, toString (.iffNode l r) v =
        "(" ++ toString l v ++ " &harr; " ++ toString r v ++ ")") ∧
    (∀ l r v, toString (.xorNode l r) v =
        "(" ++ toString l v ++ " &oplus; " ++ toString r v ++ ")") ∧
    (∀ i v, toString (.variableNode i) v = v.getD i "undefined") ∧
    (∀ l r v, toLatex (.andNode l r) v =
        "(" ++ toLatex l v ++ " \\land " ++ toLatex r v ++ ")") ∧
    (∀ l r v, toLatex (.orNode l r) v =
        "(" ++ toLatex l v ++ " \\lor " ++ toLatex r v ++ ")") ∧
    (∀ l r v, toLatex (.impliesNode l r) v =
        "(" ++ toLatex l v ++ " \\implies " ++ toLatex r v ++ ")") ∧
    (∀ l r v, toLatex (.iffNode l r) v =
        "(" ++ toLatex l v ++ " \\iff " ++ toLatex r v ++ ")") ∧
    (∀ l r v, toLatex (.xorNode l r) v =
        "(" ++ toLatex l v ++ " \\oplus " ++ toLatex r v ++ ")") ∧
    (∀ i v, toLatex (.variableNode i) v = v.getD i "undefined") ∧
    (toString (.orNode (.andNode (.variableNode 0) (.variableNode 1)) (.variableNode 2))
        ["p", "q", "r"] = "((p &and; q) &or; r)") ∧
    (toLatex (.orNode (.andNode (.variableNode 0) (.variableNode 1)) (.variableNode 2))
        ["p", "q", "r"] = "((p \\land q) \\lor r)") :=
  by
  repeat' apply And.intro
  all_goals intros
  all_goals rfl

/-- C10: scanning the empty input succeeds, producing exactly the EOF
token (type `$`, spanning the internal sentinel) and an empty variable
table. -/
theorem c10_empty_input_scan :
    scan [] = .ok ([⟨"$", 0, 1, none⟩], []) := rfl

end TruthTableTool
